import Mathlib

/-!
Verification development for the AI story generator backend.

The subject of study is the tree-search decision engine (`app/agents/mcts.py`)
together with the world-state store it reads and writes
(`app/agents/memory.py`) and the planning endpoints (`app/main.py`).

Modelling conventions:
* Python JSON values are modelled by the inductive type `Json`; Python floats
  by `ℚ` (for the fully computable parts) or `ℝ` (for the UCT formula, which
  uses `math.sqrt`/`math.log`); `float('inf')` by `⊤ : EReal`.
* Python dicts are modelled as association lists over `String` keys with
  insertion-order semantics (`alookup`, `aset`, `aupdate` mirror subscript
  read, subscript write, and `dict.update`).
* `uuid.uuid4()` is an external entropy source: callers of
  `update_world_state` pass a supply of fresh id strings, consumed one per
  inserted foreshadowing item, exactly where the source calls `uuid4`.
* Persistence (`save_state`, ChromaDB calls) is I/O with no effect on the
  in-memory world state, and is not modelled; logging likewise.
-/

/-- A parsed JSON value, as produced by Python's `json.loads`. -/
inductive Json where
  | null
  | bool (b : Bool)
  | num (q : ℚ)
  | str (s : String)
  | arr (elems : List Json)
  | obj (fields : List (String × Json))

/-- A Python dict with string keys and JSON values. -/
abbrev Dict := List (String × Json)

section AssocOps

variable {α : Type}

/-- Python dict subscript read / `dict.get`: value at the key, if present.
Keys are unique in a real Python dict; on lists with duplicated keys this
returns the first occurrence. -/
def alookup (k : String) : List (String × α) → Option α
  | [] => none
  | p :: d => if p.1 = k then some p.2 else alookup k d

/-- The keys of an association list, in order. `k ∈ keysOf d` is Python's
`k in d`. -/
def keysOf (d : List (String × α)) : List String := d.map (·.1)

/-- Python dict subscript write `d[k] = v`: overwrite in place if the key is
present, else append a new entry (Python dicts preserve insertion order). -/
def aset (d : List (String × α)) (k : String) (v : α) : List (String × α) :=
  if k ∈ keysOf d then d.map (fun p => if p.1 = k then (k, v) else p)
  else d ++ [(k, v)]

/-- Python `d.update(δ)`: subscript-write every entry of `δ` into `d`,
in `δ`'s order. -/
def aupdate (d δ : List (String × α)) : List (String × α) :=
  δ.foldl (fun acc p => aset acc p.1 p.2) d

/-- A list of entries represents a Python dict iff its keys are distinct. -/
def keysNodup (d : List (String × α)) : Prop := (keysOf d).Nodup

/-- The first of two options that is `some`, like Python's
`d.get(k, fallback)` chain. -/
def orElseO {γ : Type} (a b : Option γ) : Option γ :=
  match a with
  | some x => some x
  | none => b

instance (d : List (String × α)) : Decidable (keysNodup d) := by
  unfold keysNodup; infer_instance

end AssocOps

/-- A world-state foreshadowing entry, as built by
`MemoryManager.update_world_state`: `{id, description, status,
created_at_step}` plus the `resolved_at_step` key added on resolution
(modelled as an `Option`, `none` while the key is absent). -/
structure FItem where
  id : String
  description : String
  status : String
  created_at_step : ℕ
  resolved_at_step : Option ℕ
deriving DecidableEq

/-- One entry of `world_state["plot_points"]`. -/
structure PlotPoint where
  step : ℕ
  text : String
  metadata : Dict

/-- The structured world state owned by `MemoryManager`. -/
structure WorldState where
  characters : List (String × Dict)
  items : List (String × Dict)
  locations : List (String × Dict)
  foreshadowing : List FItem
  plot_points : List PlotPoint
  current_step : ℕ
  summary : String

/-- The world state `MemoryManager.__init__` builds (and `clear` restores). -/
def initialWorldState : WorldState :=
  ⟨[], [], [], [], [], 0, ""⟩

/-- One item of a delta's `foreshadowing` list. The source accepts either a
dict carrying a `description` key (from MCTS node states) or a plain string;
in both cases only the description text is used. -/
inductive FDelta where
  | fObj (description : String)
  | fStr (description : String)
deriving DecidableEq

/-- The description the source extracts from a delta foreshadowing item
(`item['description'] if isinstance(item, dict) else item`). -/
def fdescription : FDelta → String
  | .fObj d => d
  | .fStr d => d

/-- A world-state delta: the `updates` dict accepted by
`MemoryManager.update_world_state`. Each field is `none` when the
corresponding key is absent from the dict. -/
structure Delta where
  characters : Option (List (String × Dict))
  items : Option (List (String × Dict))
  locations : Option (List (String × Dict))
  foreshadowing : Option (List FDelta)
  resolved_foreshadowing : Option (List String)
  summary : Option String

/-- The metadata stamping done by `MemoryManager.add_event`:
`metadata["step"] = current_step; metadata["type"] = "event"`. -/
def eventMeta (metadata : Dict) (step : ℕ) : Dict :=
  aset (aset metadata "step" (Json.num step)) "type" (Json.str "event")

/-- `MemoryManager.add_event`: stamp the metadata, append one plot point
carrying the current step, then increment the step counter. The ChromaDB
insertion and `save_state` are persistence-layer I/O, not modelled. -/
def add_event (ws : WorldState) (text : String) (metadata : Dict) : WorldState :=
  { ws with
    plot_points :=
      ws.plot_points ++ [⟨ws.current_step, text, eventMeta metadata ws.current_step⟩],
    current_step := ws.current_step + 1 }

/-- The entity-map merge loop of `update_world_state` for one of
`characters` / `items` / `locations`: for each delta entry, create the entity
with an empty record if absent, then `record.update(details)`. -/
def updateCategory (m : List (String × Dict)) (dm : List (String × Dict)) :
    List (String × Dict) :=
  dm.foldl (fun acc p => aset acc p.1 (aupdate ((alookup p.1 acc).getD []) p.2)) m

/-- One step of the foreshadowing-insertion loop: skip if some existing item
already carries the description, else append a fresh `unresolved` item,
consuming one id from the supply (the source's `uuid4` call). -/
def fInsert (step : ℕ) (acc : List FItem × List String) (it : FDelta) :
    List FItem × List String :=
  let desc := fdescription it
  if desc ∈ acc.1.map FItem.description then acc
  else (acc.1 ++ [⟨acc.2.headD "", desc, "unresolved", step, none⟩], acc.2.tail)

/-- The whole `'foreshadowing'` loop of `update_world_state`. -/
def fInsertAll (step : ℕ) (fs : List FItem) (ids : List String)
    (items : List FDelta) : List FItem × List String :=
  items.foldl (fInsert step) (fs, ids)

/-- Resolution of a single description: every item whose description matches
gets `status = 'resolved'` and `resolved_at_step = current_step`. -/
def fResolve (step : ℕ) (fs : List FItem) (r : String) : List FItem :=
  fs.map (fun f =>
    if f.description = r then
      { f with status := "resolved", resolved_at_step := some step }
    else f)

/-- The whole `'resolved_foreshadowing'` loop of `update_world_state`. -/
def fResolveAll (step : ℕ) (fs : List FItem) (rs : List String) : List FItem :=
  rs.foldl (fResolve step) fs

/-- Number of foreshadowing entries carrying a given description. -/
def countDesc (D : String) : List FItem → ℕ
  | [] => 0
  | f :: fs => (if f.description = D then 1 else 0) + countDesc D fs

/-- `MemoryManager.update_world_state`: per-entity per-field merge for the
three entity maps, insert-if-description-absent for `foreshadowing`,
resolve-by-description for `resolved_foreshadowing`, direct overwrite for
`summary`. `plot_points` and `current_step` are untouched.
`save_state` is persistence I/O, not modelled. -/
def update_world_state (ws : WorldState) (u : Delta) (ids : List String) :
    WorldState :=
  let chars := match u.characters with
    | some dm => updateCategory ws.characters dm
    | none => ws.characters
  let its := match u.items with
    | some dm => updateCategory ws.items dm
    | none => ws.items
  let locs := match u.locations with
    | some dm => updateCategory ws.locations dm
    | none => ws.locations
  let fsIns := match u.foreshadowing with
    | some items => fInsertAll ws.current_step ws.foreshadowing ids items
    | none => (ws.foreshadowing, ids)
  let fsRes := match u.resolved_foreshadowing with
    | some rs => fResolveAll ws.current_step fsIns.1 rs
    | none => fsIns.1
  { ws with
    characters := chars, items := its, locations := locs,
    foreshadowing := fsRes,
    summary := match u.summary with | some s => s | none => ws.summary }

/-- A delta that only updates the `characters` map. -/
def deltaChars (dm : List (String × Dict)) : Delta :=
  ⟨some dm, none, none, none, none, none⟩

/-- A delta that only inserts foreshadowing items. -/
def deltaFs (items : List FDelta) : Delta :=
  ⟨none, none, none, some items, none, none⟩

/-- A delta that only resolves foreshadowing descriptions. -/
def deltaResolve (rs : List String) : Delta :=
  ⟨none, none, none, none, some rs, none⟩

/-- `l₂` extends `l₁`: it begins with `l₁` and only appends after it. -/
def listExtends {γ : Type} (l₁ l₂ : List γ) : Prop := ∃ t, l₂ = l₁ ++ t

/-- Well-formedness of a delta as a family of Python dicts: in each supplied
entity map the entity names are distinct, and each supplied per-entity record
has distinct field names. (Any dict produced by `json.loads` or built by the
source satisfies this; an association list with duplicated keys does not
represent a Python dict at all.) -/
def WFDelta (u : Delta) : Prop :=
  (∀ dm ∈ u.characters, keysNodup dm ∧ ∀ p ∈ dm, keysNodup p.2)
  ∧ (∀ dm ∈ u.items, keysNodup dm ∧ ∀ p ∈ dm, keysNodup p.2)
  ∧ (∀ dm ∈ u.locations, keysNodup dm ∧ ∀ p ∈ dm, keysNodup p.2)

/-- Digit string to numeric value. -/
def natOfDigits (cs : List Char) : ℕ :=
  cs.foldl (fun a c => a * 10 + (c.toNat - 48)) 0

/-- Modelled from Python's `float(str)` on optionally signed decimal
literals (`"0.5"`, `"3."`, `"-.25"`, surrounding whitespace allowed).
Exponent forms, `inf`/`nan` and underscore separators, which `float` also
accepts, are not modelled; no score payload in this system uses them. -/
def strToRat (s : String) : Option ℚ :=
  let t := s.trim
  let p :=
    if t.startsWith "-" then ((-1 : ℚ), t.drop 1)
    else if t.startsWith "+" then ((1 : ℚ), t.drop 1)
    else ((1 : ℚ), t)
  match p.2.splitOn "." with
  | [w] =>
      if w.length ≠ 0 ∧ w.data.all Char.isDigit then
        some (p.1 * natOfDigits w.data)
      else none
  | [w, f] =>
      if (w.length ≠ 0 ∨ f.length ≠ 0) ∧ w.data.all Char.isDigit
          ∧ f.data.all Char.isDigit then
        some (p.1 * ((natOfDigits w.data : ℚ)
          + (natOfDigits f.data : ℚ) / (10 : ℚ) ^ f.length))
      else none
  | _ => none

/-- Python `float(x)` applied to a JSON value: numbers convert to
themselves, booleans to 0/1, numeric strings are parsed; `null`, arrays and
objects raise `TypeError`, modelled as `none`. -/
def pyFloat : Json → Option ℚ
  | .num q => some q
  | .bool b => some (if b then 1 else 0)
  | .str s => strToRat s
  | _ => none

/-- The critique-score parsing shared verbatim by `StoryPlanner._simulate`
and `ChapterGenerator._simulate`:
`try: return float(json.loads(response).get("score", 0.5)) except: return 0.5`.
The argument is the outcome of `json.loads` on the critique response
(`none` = the response was not valid JSON). A non-object payload raises
`AttributeError` at `.get`, caught by the bare `except`; a missing `score`
key falls back to the default `0.5`; a score value `float` cannot convert
raises inside the `try`, also caught. -/
def simulateScore (payload : Option Json) : ℚ :=
  match payload with
  | some (.obj fields) =>
      match alookup "score" fields with
      | some v => (pyFloat v).getD (1 / 2)
      | none => 1 / 2
  | _ => 1 / 2

/-- A node-state foreshadowing entry as kept in `StoryNode.state`
(`{"description": ..., "status": ...}` dicts built by
`_process_expansion_response`). -/
structure FNode where
  description : String
  status : String
deriving DecidableEq

/-- The `state` dict of a `StoryNode`: the planner's expansion always builds
states with exactly the keys `summary`, `characters`, `foreshadowing`.
For the run's root the source passes the full world-state dict, of which
expansion and commit read exactly these three keys, so the projection to
this record is faithful. -/
structure NodeState where
  summary : String
  characters : List (String × Dict)
  foreshadowing : List FNode

mutual

/-- Python `==` on JSON-decoded values: `None` equals only itself, booleans
compare numerically with numbers (`True == 1` is true), strings by content,
lists elementwise, dicts by key-value content irrespective of order
(`json.loads` gives dicts with distinct string keys, for which the
subset-plus-equal-length test below is exactly dict equality). `==` on
these values never raises. -/
def pyEq : Json → Json → Bool
  | .null, .null => true
  | .bool a, .bool b => a == b
  | .bool a, .num q => (if a then (1 : ℚ) else 0) == q
  | .num q, .bool b => q == (if b then (1 : ℚ) else 0)
  | .num a, .num b => a == b
  | .str a, .str b => a == b
  | .arr as, .arr bs => pyEqList as bs
  | .obj as, .obj bs => as.length == bs.length && pyEqSub as bs
  | _, _ => false
termination_by a b => sizeOf a + sizeOf b
decreasing_by
  all_goals simp_wf
  all_goals omega

def pyEqList : List Json → List Json → Bool
  | [], [] => true
  | a :: as, b :: bs => pyEq a b && pyEqList as bs
  | _, _ => false
termination_by as bs => sizeOf as + sizeOf bs
decreasing_by
  all_goals simp_wf
  all_goals omega

def pyEqSub : List (String × Json) → List (String × Json) → Bool
  | [], _ => true
  | (k, v) :: ps, bs => pyEqField k v bs && pyEqSub ps bs
termination_by ps bs => sizeOf ps + sizeOf bs
decreasing_by
  all_goals simp_wf
  all_goals omega

def pyEqField : String → Json → List (String × Json) → Bool
  | _, _, [] => false
  | k, v, (k2, v2) :: qs => (k == k2 && pyEq v v2) || pyEqField k v qs
termination_by k v qs => sizeOf v + sizeOf qs
decreasing_by
  all_goals simp_wf
  all_goals omega

end

/-- A hashable Python value: lists and dicts raise
`TypeError: unhashable type` when used as dict keys. -/
def pyHashable : Json → Bool
  | .arr _ => false
  | .obj _ => false
  | _ => true

/-- Decode one element of a sequence argument of `dict.update`: the element
must unpack into exactly two items with a hashable first item. A JSON pair
`[k, v]` gives `(k, v)` when `k` is hashable; a two-character string gives
its two characters; a two-key object iterates to its two keys. Anything
else raises (`ValueError` on a wrong length, `TypeError` on an unhashable
key). -/
def pairOfElem : Json → Option (Json × Json)
  | .arr [k, v] => if pyHashable k then some (k, v) else none
  | .str s =>
      match s.data with
      | [c1, c2] => some (Json.str (String.mk [c1]), Json.str (String.mk [c2]))
      | _ => none
  | .obj [p, q] => some (Json.str p.1, Json.str q.1)
  | _ => none

/-- Decode the argument of `new_chars.update(...)` into key-value pairs,
exactly where CPython's `dict.update` succeeds: an object contributes its
fields (values arbitrary); an array is a sequence of pairs; the empty
string iterates to nothing; any other string raises (its one-character
elements have length 1), as does any non-iterable. -/
def updateArg : Json → Option (List (Json × Json))
  | .obj fields => some (fields.map (fun p => (Json.str p.1, p.2)))
  | .arr elems => elems.mapM pairOfElem
  | .str s => if s.length = 0 then some [] else none
  | _ => none

/-- Python `for x in j` on a JSON value: arrays yield their elements,
strings their characters (as one-character strings), objects their keys;
numbers, booleans and `null` raise `TypeError`. -/
def iterElems : Json → Option (List Json)
  | .arr es => some es
  | .str s => some (s.data.map (fun c => Json.str (String.mk [c])))
  | .obj fields => some (fields.map (fun p => Json.str p.1))
  | _ => none

/-- Subscript write on a Python dict with arbitrary (hashable) keys: if an
`==`-equal key is present its value is overwritten in place and the stored
key object is kept, else the pair is appended. -/
def pyDictSet (d : List (Json × Json)) (k v : Json) : List (Json × Json) :=
  if d.any (fun p => pyEq p.1 k) then
    d.map (fun p => if pyEq p.1 k then (p.1, v) else p)
  else d ++ [(k, v)]

/-- `dict.update` over already-decoded pairs. -/
def pyDictUpdate (d : List (Json × Json)) (pairs : List (Json × Json)) :
    List (Json × Json) :=
  pairs.foldl (fun acc p => pyDictSet acc p.1 p.2) d

/-- A node-state foreshadowing entry as the source builds it
(`{"description": f, "status": ...}` for an arbitrary JSON value `f`). -/
structure PyFNode where
  description : Json
  status : String

/-- The parts of a parent node's `state` dict that the expansion option
loop reads: `summary` (always a string here, as every state the source
builds stores one), `characters` (a dict whose keys and values can be
arbitrary after `dict.update` pair-sequence updates) and `foreshadowing`.
This is the untyped-dict view used to model `_process_expansion_response`
faithfully; the engine model's `NodeState` is its restriction to
string-keyed object records and string descriptions. -/
structure PyState where
  summary : String
  characters : List (Json × Json)
  foreshadowing : List PyFNode

/-- One iteration of `StoryPlanner._process_expansion_response`'s option
loop: build the child label and child state from one entry of `options`.
`none` models an exception escaping this iteration — exactly the places
CPython raises: a non-dict option (`AttributeError` at `.get`), a
non-string `text` (`TypeError` at string concatenation), a
`new_characters` argument `dict.update` rejects, or a non-iterable
`new_foreshadowing` / `resolved_foreshadowing` value. Everything the source
processes without raising is processed here: foreshadowing entries of any
JSON type are appended as descriptions verbatim (strings iterate per
character, objects per key), `dict.update` takes arbitrary record values
and pair sequences, and resolve comparisons use Python `==` (`pyEq`),
which never raises. An exception partway through an option leaves no
observable partial state — the child is appended only at the end and the
containers mutated before the raise are option-local copies — so the
all-or-nothing `Option` is faithful per option.
One caveat: the source's `list.copy()` of the parent's foreshadowing list
is shallow, so when an option resolves an INHERITED item, CPython also
flips the `status` field inside the parent's and earlier siblings' state
dicts, which this value-semantics model does not reproduce. The divergence
is confined to that `status` field: it changes neither which children are
appended, nor their labels, nor any committed world state, because
`update_world_state` reads only the `description` of delta foreshadowing
items and rewrites `status` itself on resolution. -/
def processOption (ps : PyState) (opt : Json) : Option (String × PyState) := do
  let fields ← match opt with
    | .obj fs => some fs
    | _ => none
  let text ← match (alookup "text" fields).getD (Json.str "") with
    | .str t => some t
    | _ => none
  let chars ← match alookup "new_characters" fields with
    | none => some ps.characters
    | some j => (updateArg j).map (pyDictUpdate ps.characters)
  let fs1 ← match alookup "new_foreshadowing" fields with
    | none => some ps.foreshadowing
    | some j =>
        (iterElems j).map (fun es =>
          ps.foreshadowing ++ es.map (fun f => PyFNode.mk f "unresolved"))
  let fs2 ← match alookup "resolved_foreshadowing" fields with
    | none => some fs1
    | some j =>
        (iterElems j).map (fun rs =>
          rs.foldl (fun acc r =>
            acc.map (fun f =>
              if pyEq f.description r then { f with status := "resolved" }
              else f)) fs1)
  some (text, ⟨ps.summary ++ " -> " ++ text, chars, fs2⟩)

/-- The option loop of `_process_expansion_response`: one child per option
until the first option on which the source raises, which ends the loop
through the surrounding `except`, keeping the children appended so far. -/
def childrenOfOptions (ps : PyState) : List Json → List (String × PyState)
  | [] => []
  | opt :: rest =>
      match processOption ps opt with
      | some c => c :: childrenOfOptions ps rest
      | none => []

/-- `StoryPlanner._process_expansion_response`: `json.loads` failure
(`none`), a non-dict payload (`AttributeError` at `.get`), or a non-list
`options` value all end with zero children through the `except`; a missing
`options` key iterates over the default `[]`. (A string or dict `options`
value iterates in Python over characters/keys, every one of which raises at
`.get` before any child is appended, so zero children there as well.) -/
def processExpansionResponse (ps : PyState) (response : Option Json) :
    List (String × PyState) :=
  match response with
  | none => []
  | some (.obj fields) =>
      match (alookup "options" fields).getD (.arr []) with
      | .arr opts => childrenOfOptions ps opts
      | _ => []
  | some _ => []

/-- A search-tree node (`StoryNode` in `mcts.py`). The parent back-reference
is represented implicitly: operations that need `parent.visits` receive it
as an argument, and backpropagation walks the tree from the root. -/
inductive StoryNode where
  | mk (content : String) (state : NodeState) (visits : ℕ) (value : ℚ)
      (children : List StoryNode)

def StoryNode.content : StoryNode → String
  | .mk c _ _ _ _ => c

def StoryNode.state : StoryNode → NodeState
  | .mk _ st _ _ _ => st

def StoryNode.visits : StoryNode → ℕ
  | .mk _ _ v _ _ => v

def StoryNode.value : StoryNode → ℚ
  | .mk _ _ _ val _ => val

def StoryNode.children : StoryNode → List StoryNode
  | .mk _ _ _ _ cs => cs

/-- One backpropagation touch: `visits += 1; value += score`. -/
def StoryNode.bump (s : ℚ) : StoryNode → StoryNode
  | .mk c st v val cs => .mk c st (v + 1) (val + s) cs

/-- Placeholder node for the total list-indexing helper. -/
def dummyNode : StoryNode := .mk "" ⟨"", [], []⟩ 0 0 []

/-- `StoryNode.uct_score`: `+infinity` (the top of `EReal`) for an unvisited
node, otherwise the UCT formula. The source reads `self.parent.visits`
through the parent pointer; here the parent's visit count is an argument.
The source's default exploration weight, the literal `1.41`, is what
`_select` always uses; callers here pass it explicitly. -/
noncomputable def StoryNode.uct_score (n : StoryNode) (parentVisits : ℕ)
    (exploration_weight : ℝ) : EReal :=
  if n.visits = 0 then ⊤
  else (((n.value : ℝ) / (n.visits : ℝ)
    + exploration_weight * Real.sqrt (Real.log (parentVisits : ℝ) / (n.visits : ℝ)) : ℝ) : EReal)

/-- Replace the element at an index (the effect of mutating one child in
place). -/
def updAt {γ : Type} : List γ → ℕ → γ → List γ
  | [], _, _ => []
  | _ :: xs, 0, y => y :: xs
  | x :: xs, i + 1, y => x :: updAt xs i y

/-- Index of the first child with maximal `uct_score`, Python
`max(children, key=...)` semantics (a later child wins only with a strictly
greater key). -/
noncomputable def bestUctIdx (parentVisits : ℕ) (cs : List StoryNode) : ℕ :=
  (List.range cs.length).foldl
    (fun b j =>
      if (cs.getD b dummyNode).uct_score parentVisits 1.41
          < (cs.getD j dummyNode).uct_score parentVisits 1.41 then j else b) 0

/-- Index of the first child with maximal visit count, Python
`max(children, key=lambda n: n.visits)` semantics. -/
def bestVisitIdx (cs : List StoryNode) : ℕ :=
  (List.range cs.length).foldl
    (fun b j =>
      if (cs.getD b dummyNode).visits < (cs.getD j dummyNode).visits then j
      else b) 0

/-- One rollout of `MCTSBase.run_search`'s inner loop, rooted at the current
node: `_select` descends through maximal-UCT children to a leaf; an
unvisited leaf is expanded through the strategy (`ef`, the composition of
the external call and response processing); if children exist one is picked
(`pk` is this rollout's `random.choice` draw) and simulated, else the
childless node itself is simulated; `_backpropagate` then bumps every node
on the path — realised here on the unwind. The source also keeps bumping
ancestors above the current node up to the run's root; those counters are
never read again, so the model tracks only the subtree rooted at the
current node. -/
noncomputable def rollout (ef : StoryNode → List (String × NodeState))
    (sf : StoryNode → ℚ) (pk : ℕ) : StoryNode → StoryNode × ℚ
  | .mk c st v val [] =>
      let node := StoryNode.mk c st v val []
      let kids := if v = 0 then
          (ef node).map (fun p => StoryNode.mk p.1 p.2 0 0 []) else []
      match kids with
      | [] =>
          let s := sf node
          (.mk c st (v + 1) (val + s) [], s)
      | k0 :: kr =>
          let i := pk % (k0 :: kr).length
          let child := (k0 :: kr).get ⟨i, Nat.mod_lt _ (Nat.succ_pos kr.length)⟩
          let s := sf child
          (.mk c st (v + 1) (val + s) (updAt (k0 :: kr) i (child.bump s)), s)
  | .mk c st v val (k0 :: kr) =>
      let i := bestUctIdx v (k0 :: kr) % (k0 :: kr).length
      let res := rollout ef sf pk
        ((k0 :: kr).get ⟨i, Nat.mod_lt _ (Nat.succ_pos kr.length)⟩)
      (.mk c st (v + 1) (val + res.2) (updAt (k0 :: kr) i res.1), res.2)
termination_by n => sizeOf n
decreasing_by
  simp_wf
  have h := List.sizeOf_lt_of_mem (List.get_mem (k0 :: kr)
    (bestUctIdx v (k0 :: kr) % (k0 :: kr).length)
    (Nat.mod_lt _ (Nat.succ_pos kr.length)))
  rw [List.get_eq_getElem] at h
  have ha : sizeOf (k0 :: kr) = 1 + sizeOf k0 + sizeOf kr := rfl
  simp only [List.length_cons] at h
  omega

/-- `max_iterations` rollouts rooted at the current node. -/
noncomputable def runStep (ef : StoryNode → List (String × NodeState))
    (sf : StoryNode → ℚ) (pk : ℕ → ℕ) (iters : ℕ) (cur : StoryNode) :
    StoryNode :=
  (List.range iters).foldl (fun n k => (rollout ef sf (pk k) n).1) cur

/-- The metadata `run_search` passes to `add_event`
(`{"type": "plot_point"}`; `add_event` then overwrites `type` with
`"event"`). -/
def plotMeta : Dict := [("type", Json.str "plot_point")]

/-- A committed child's `state` dict viewed as the `updates` argument of
`update_world_state`: exactly the keys `summary`, `characters`,
`foreshadowing` are present, and each node-level foreshadowing entry is a
dict carrying a `description`. -/
def deltaOfNodeState (st : NodeState) : Delta :=
  ⟨some st.characters, none, none,
   some (st.foreshadowing.map (fun f => FDelta.fObj f.description)),
   none, some st.summary⟩

/-- The per-step commit of `run_search`:
`memory.add_event(best.content, {"type": "plot_point"})` followed by
`memory.update_world_state(best.state)`. -/
def commitNode (mem : WorldState) (n : StoryNode) (ids : List String) :
    WorldState :=
  update_world_state (add_event mem n.content plotMeta)
    (deltaOfNodeState n.state) ids

/-- Folding the per-step commits of a chosen node sequence into the store. -/
def commitAll (ids : ℕ → List String) (mem : WorldState) :
    List StoryNode → WorldState
  | [] => mem
  | c :: cs => commitAll (fun j => ids (j + 1)) (commitNode mem c (ids 0)) cs

/-- The step loop of `MCTSBase.run_search`: per step, run `iters` rollouts
from the current node; if the current node still has no children, stop the
whole sequence; otherwise take the child with the highest visit count,
append its label, commit it to memory and continue from it. `ids j` is the
fresh-id supply for step `j`. -/
noncomputable def runLoop (ef : StoryNode → List (String × NodeState))
    (sf : StoryNode → ℚ) (pk : ℕ → ℕ → ℕ) (iters : ℕ) :
    (ℕ → List String) → ℕ → StoryNode → WorldState → List String →
      List String × WorldState
  | _, 0, _, mem, seq => (seq, mem)
  | ids, steps + 1, cur, mem, seq =>
      let cur' := runStep ef sf (pk steps) iters cur
      match cur'.children with
      | [] => (seq, mem)
      | k0 :: kr =>
          let best := (k0 :: kr).get
            ⟨bestVisitIdx (k0 :: kr) % (k0 :: kr).length,
             Nat.mod_lt _ (Nat.succ_pos kr.length)⟩
          runLoop ef sf pk iters (fun j => ids (j + 1)) steps best
            (commitNode mem best (ids 0)) (seq ++ [best.content])

/-- `MCTSBase.run_search`: root the tree at the prompt and the caller's
initial state, then run the step loop. Returns the accumulated label
sequence together with the final memory state. -/
noncomputable def run_search (ef : StoryNode → List (String × NodeState))
    (sf : StoryNode → ℚ) (pk : ℕ → ℕ → ℕ) (iters : ℕ)
    (ids : ℕ → List String) (steps : ℕ) (initial_state : NodeState)
    (prompt : String) (mem : WorldState) : List String × WorldState :=
  runLoop ef sf pk iters ids steps (StoryNode.mk prompt initial_state 0 0 [])
    mem []

/-- Modelled from the spec: `StoryPlanner.refine_plan` is invoked by the
`/api/plan/refine` endpoint in `app/main.py`, but no definition of it
exists anywhere under the repository's source tree. Per spec §4.3 it is one
external structured call that rewrites the entire state wholesale given
human feedback, and on failure of that call it returns the input state
unchanged. The external call's outcome is the `llmResult` argument
(`none` = call failure or unparseable response). -/
def refine_plan (current_state : Json) (feedback : String)
    (llmResult : Option Json) : Json :=
  match llmResult with
  | some s => s
  | none => current_state

/-- The world states reachable through the `MemoryManager` mutators from the
freshly initialised state (also the state after `clear`). -/
inductive ReachableWS : WorldState → Prop
  | init : ReachableWS initialWorldState
  | event (ws : WorldState) (t : String) (m : Dict) :
      ReachableWS ws → ReachableWS (add_event ws t m)
  | update (ws : WorldState) (u : Delta) (ids : List String) :
      ReachableWS ws → ReachableWS (update_world_state ws u ids)

theorem update_world_state_plot_points (ws : WorldState) (u : Delta)
    (ids : List String) :
    (update_world_state ws u ids).plot_points = ws.plot_points := rfl

theorem update_world_state_current_step (ws : WorldState) (u : Delta)
    (ids : List String) :
    (update_world_state ws u ids).current_step = ws.current_step := rfl

/-- **C2.** At every observation point reachable through the store's
mutators, `current_step` equals the number of plot points; `add_event`
appends exactly one plot point stamped with the pre-increment step and then
increments `current_step` exactly once; on the empty state,
`add_event "A"` yields `current_step = 1` and the single plot point
`{step: 0, text: "A"}`. -/
theorem C2_step_counter_invariant :
    (∀ ws : WorldState, ReachableWS ws →
        ws.current_step = ws.plot_points.length)
    ∧ (∀ (ws : WorldState) (t : String) (m : Dict),
        (add_event ws t m).plot_points
            = ws.plot_points ++ [⟨ws.current_step, t, eventMeta m ws.current_step⟩]
          ∧ (add_event ws t m).current_step = ws.current_step + 1)
    ∧ (add_event initialWorldState "A" []).current_step = 1
    ∧ (add_event initialWorldState "A" []).plot_points
        = [⟨0, "A", [("step", Json.num 0), ("type", Json.str "event")]⟩] := by
  refine ⟨?_, fun ws t m => ⟨rfl, rfl⟩, rfl, rfl⟩
  intro ws h
  induction h with
  | init => rfl
  | event ws t m _ ih =>
      simp [add_event, ih]
  | update ws u ids _ ih =>
      simpa [update_world_state_plot_points, update_world_state_current_step]
        using ih

/-- Witness for C2: the invariant instantiated at a concrete reachable
state (one event recorded on the empty store). -/
theorem C2_step_counter_invariant_witness :
    (add_event initialWorldState "A" []).current_step
      = (add_event initialWorldState "A" []).plot_points.length :=
  C2_step_counter_invariant.1 _
    (ReachableWS.event initialWorldState "A" [] ReachableWS.init)

section AssocLemmas

variable {α : Type}

theorem keysOf_nil : keysOf ([] : List (String × α)) = [] := rfl

theorem keysOf_cons {p : String × α} {d : List (String × α)} :
    keysOf (p :: d) = p.1 :: keysOf d := rfl

theorem mem_keysOf {k : String} {d : List (String × α)} :
    k ∈ keysOf d ↔ ∃ p ∈ d, p.1 = k := by
  simp [keysOf, List.mem_map]

theorem keysOf_mem {p : String × α} {d : List (String × α)} (h : p ∈ d) :
    p.1 ∈ keysOf d :=
  mem_keysOf.mpr ⟨p, h, rfl⟩

theorem map_eq_self_of {γ : Type*} {l : List γ} {f : γ → γ}
    (h : ∀ x ∈ l, f x = x) : l.map f = l := by
  induction l with
  | nil => rfl
  | cons x l ih =>
      rw [List.map_cons, h x (List.mem_cons_self x l),
        ih (fun y hy => h y (List.mem_cons_of_mem x hy))]

theorem alookup_eq_none {k : String} {d : List (String × α)}
    (h : k ∉ keysOf d) : alookup k d = none := by
  induction d with
  | nil => rfl
  | cons p d ih =>
      simp only [keysOf_cons, List.mem_cons, not_or] at h
      rw [alookup, if_neg (fun hq => h.1 hq.symm)]
      exact ih h.2

theorem alookup_mem {k : String} {v : α} {d : List (String × α)}
    (h : alookup k d = some v) : (k, v) ∈ d := by
  induction d with
  | nil => simp [alookup] at h
  | cons p d ih =>
      by_cases hp : p.1 = k
      · rw [alookup, if_pos hp] at h
        have : p = (k, v) := Prod.ext hp (Option.some.inj h)
        exact this ▸ List.mem_cons_self p d
      · rw [alookup, if_neg hp] at h
        exact List.mem_cons_of_mem p (ih h)

theorem alookup_isSome {k : String} {d : List (String × α)}
    (h : k ∈ keysOf d) : ∃ v, alookup k d = some v := by
  induction d with
  | nil => simp [keysOf] at h
  | cons p d ih =>
      by_cases hp : p.1 = k
      · exact ⟨p.2, by rw [alookup, if_pos hp]⟩
      · rw [keysOf_cons] at h
        rcases List.mem_cons.mp h with h' | h'
        · exact absurd h'.symm hp
        · obtain ⟨v, hv⟩ := ih h'
          exact ⟨v, by rw [alookup, if_neg hp]; exact hv⟩

theorem alookup_map_set {d : List (String × α)} {k : String} {v : α}
    (hmem : k ∈ keysOf d) :
    alookup k (d.map (fun p => if p.1 = k then (k, v) else p)) = some v := by
  induction d with
  | nil => simp [keysOf] at hmem
  | cons p d ih =>
      by_cases hp : p.1 = k
      · simp [alookup, hp]
      · rw [keysOf_cons] at hmem
        rcases List.mem_cons.mp hmem with h' | h'
        · exact absurd h'.symm hp
        · simpa [alookup, hp] using ih h'

theorem alookup_append_self {d : List (String × α)} {k : String} {v : α}
    (h : k ∉ keysOf d) : alookup k (d ++ [(k, v)]) = some v := by
  induction d with
  | nil => simp [alookup]
  | cons p d ih =>
      simp only [keysOf_cons, List.mem_cons, not_or] at h
      rw [List.cons_append, alookup, if_neg (fun hq => h.1 hq.symm)]
      exact ih h.2

theorem alookup_aset_self {d : List (String × α)} {k : String} {v : α} :
    alookup k (aset d k v) = some v := by
  unfold aset
  split_ifs with hmem
  · exact alookup_map_set hmem
  · exact alookup_append_self hmem

theorem alookup_map_set_ne {d : List (String × α)} {k k' : String} {v : α}
    (h : k' ≠ k) :
    alookup k' (d.map (fun p => if p.1 = k then (k, v) else p)) = alookup k' d := by
  induction d with
  | nil => rfl
  | cons p d ih =>
      rw [List.map_cons, alookup, alookup]
      by_cases hp : p.1 = k
      · rw [show (if p.1 = k then (k, v) else p) = (k, v) from if_pos hp,
          if_neg (show ¬((k, v).1 = k') from fun hq => h hq.symm),
          if_neg (show ¬(p.1 = k') from fun hq => h (hp.symm.trans hq).symm)]
        exact ih
      · rw [show (if p.1 = k then (k, v) else p) = p from if_neg hp]
        by_cases hp' : p.1 = k'
        · rw [if_pos hp', if_pos hp']
        · rw [if_neg hp', if_neg hp']
          exact ih

theorem alookup_append_ne {d : List (String × α)} {k k' : String} {v : α}
    (h : k' ≠ k) : alookup k' (d ++ [(k, v)]) = alookup k' d := by
  induction d with
  | nil =>
      rw [List.nil_append,
        show alookup k' [(k, v)] = if k = k' then some v else none from rfl,
        if_neg (fun hq => h hq.symm)]
      rfl
  | cons p d ih =>
      rw [List.cons_append, alookup, alookup]
      by_cases hp' : p.1 = k'
      · rw [if_pos hp', if_pos hp']
      · rw [if_neg hp', if_neg hp']
        exact ih

theorem alookup_aset_ne {d : List (String × α)} {k k' : String} {v : α}
    (h : k' ≠ k) : alookup k' (aset d k v) = alookup k' d := by
  unfold aset
  split_ifs with hmem
  · exact alookup_map_set_ne h
  · exact alookup_append_ne h

theorem mem_aset_eq {d : List (String × α)} {k : String} {v : α}
    {p : String × α} (hp : p ∈ aset d k v) (hk : p.1 = k) : p = (k, v) := by
  unfold aset at hp
  split_ifs at hp with hmem
  · obtain ⟨q, _, hq⟩ := List.mem_map.mp hp
    by_cases hq1 : q.1 = k
    · rw [if_pos hq1] at hq
      exact hq.symm
    · rw [if_neg hq1] at hq
      exact absurd (hq ▸ hk) hq1
  · rcases List.mem_append.mp hp with h | h
    · exact absurd (hk ▸ keysOf_mem h) hmem
    · simpa using h

theorem mem_aset_of_ne {d : List (String × α)} {k : String} {v : α}
    {p : String × α} (hk : p.1 ≠ k) : p ∈ aset d k v ↔ p ∈ d := by
  unfold aset
  split_ifs with hmem
  · constructor
    · intro hp
      obtain ⟨q, hq, hqe⟩ := List.mem_map.mp hp
      by_cases hq1 : q.1 = k
      · rw [if_pos hq1] at hqe
        exact absurd (by rw [← hqe]) hk
      · rw [if_neg hq1] at hqe
        exact hqe ▸ hq
    · intro hp
      refine List.mem_map.mpr ⟨p, hp, ?_⟩
      simp only [if_neg hk]
  · rw [List.mem_append, List.mem_singleton]
    constructor
    · rintro (h | h)
      · exact h
      · exact absurd (by rw [h]) hk
    · exact fun h => Or.inl h

theorem mem_keysOf_aset {d : List (String × α)} {k k' : String} {v : α}
    (h : k' ∈ keysOf d) : k' ∈ keysOf (aset d k v) := by
  unfold aset
  split_ifs with hmem
  · obtain ⟨p, hp, hpk⟩ := mem_keysOf.mp h
    refine mem_keysOf.mpr
      ⟨if p.1 = k then (k, v) else p, List.mem_map.mpr ⟨p, hp, rfl⟩, ?_⟩
    by_cases hp1 : p.1 = k
    · rw [if_pos hp1]
      exact hp1 ▸ hpk
    · rw [if_neg hp1]
      exact hpk
  · simp only [keysOf, List.map_append]
    exact List.mem_append.mpr (Or.inl h)

theorem self_mem_keysOf_aset {d : List (String × α)} {k : String} {v : α} :
    k ∈ keysOf (aset d k v) := by
  unfold aset
  split_ifs with hmem
  · obtain ⟨p, hp, hpk⟩ := mem_keysOf.mp hmem
    exact mem_keysOf.mpr ⟨(k, v), List.mem_map.mpr ⟨p, hp, by rw [if_pos hpk]⟩, rfl⟩
  · simp [keysOf]

theorem aset_eq_self {d : List (String × α)} {k : String} {v : α}
    (hmem : k ∈ keysOf d) (huni : ∀ p ∈ d, p.1 = k → p = (k, v)) :
    aset d k v = d := by
  unfold aset
  rw [if_pos hmem]
  apply map_eq_self_of
  intro p hp
  by_cases hp1 : p.1 = k
  · rw [if_pos hp1]
    exact (huni p hp hp1).symm
  · rw [if_neg hp1]

theorem foldl_eq_self {β γ : Type*} (g : β → γ → β) (b : β) (l : List γ)
    (h : ∀ x ∈ l, g b x = b) : l.foldl g b = b := by
  induction l with
  | nil => rfl
  | cons x l ih =>
      rw [List.foldl_cons, h x (List.mem_cons_self x l)]
      exact ih (fun y hy => h y (List.mem_cons_of_mem x hy))

theorem aupdate_nil {d : List (String × α)} : aupdate d [] = d := rfl

theorem aupdate_cons {d : List (String × α)} {q : String × α}
    {δ : List (String × α)} :
    aupdate d (q :: δ) = aupdate (aset d q.1 q.2) δ := rfl

theorem alookup_aupdate_not_mem {d δ : List (String × α)} {k : String}
    (h : k ∉ keysOf δ) : alookup k (aupdate d δ) = alookup k d := by
  induction δ generalizing d with
  | nil => rfl
  | cons q δ ih =>
      simp only [keysOf_cons, List.mem_cons, not_or] at h
      rw [aupdate_cons, ih h.2, alookup_aset_ne h.1]

theorem mem_aupdate_iff_not_key {d δ : List (String × α)} {k : String}
    {p : String × α} (h : k ∉ keysOf δ) (hk : p.1 = k) :
    p ∈ aupdate d δ ↔ p ∈ d := by
  induction δ generalizing d with
  | nil => exact Iff.rfl
  | cons q δ ih =>
      simp only [keysOf_cons, List.mem_cons, not_or] at h
      rw [aupdate_cons, ih h.2,
        mem_aset_of_ne (fun hq => h.1 (hk.symm.trans hq))]

theorem mem_aupdate_uniform {d δ : List (String × α)} {k : String} {v : α}
    {p : String × α} (hδ : keysNodup δ) (hkv : (k, v) ∈ δ)
    (hp : p ∈ aupdate d δ) (hk : p.1 = k) : p = (k, v) := by
  induction δ generalizing d with
  | nil => simp at hkv
  | cons q δ ih =>
      simp only [keysNodup, keysOf_cons, List.nodup_cons] at hδ
      rcases List.mem_cons.mp hkv with he | he
      · have hq1 : q.1 = k := by rw [← he]
        rw [aupdate_cons] at hp
        have hmem : p ∈ aset d q.1 q.2 :=
          (mem_aupdate_iff_not_key (hq1 ▸ hδ.1) hk).mp hp
        have heq : p = (q.1, q.2) := mem_aset_eq hmem (hk.trans hq1.symm)
        exact (heq.trans Prod.mk.eta).trans he.symm
      · exact ih hδ.2 he (by rwa [aupdate_cons] at hp)

theorem mem_keysOf_aupdate_left {d δ : List (String × α)} {k : String}
    (h : k ∈ keysOf d) : k ∈ keysOf (aupdate d δ) := by
  induction δ generalizing d with
  | nil => exact h
  | cons q δ ih =>
      rw [aupdate_cons]
      exact ih (mem_keysOf_aset h)

theorem mem_keysOf_aupdate_right {d δ : List (String × α)} {k : String}
    (h : k ∈ keysOf δ) : k ∈ keysOf (aupdate d δ) := by
  induction δ generalizing d with
  | nil => simp [keysOf] at h
  | cons q δ ih =>
      rw [aupdate_cons]
      rw [keysOf_cons] at h
      rcases List.mem_cons.mp h with he | he
      · exact mem_keysOf_aupdate_left (by rw [he]; exact self_mem_keysOf_aset)
      · exact ih he

theorem alookup_of_uniform {d : List (String × α)} {k : String} {v : α}
    (hmem : k ∈ keysOf d) (huni : ∀ p ∈ d, p.1 = k → p = (k, v)) :
    alookup k d = some v := by
  induction d with
  | nil => simp [keysOf] at hmem
  | cons p d ih =>
      by_cases hp : p.1 = k
      · rw [alookup, if_pos hp, huni p (List.mem_cons_self p d) hp]
      · rw [alookup, if_neg hp]
        rw [keysOf_cons] at hmem
        rcases List.mem_cons.mp hmem with h' | h'
        · exact absurd h'.symm hp
        · exact ih h' (fun q hq => huni q (List.mem_cons_of_mem p hq))

theorem alookup_aupdate_mem {d δ : List (String × α)} {k : String} {v : α}
    (hδ : keysNodup δ) (hkv : (k, v) ∈ δ) :
    alookup k (aupdate d δ) = some v :=
  alookup_of_uniform
    (mem_keysOf_aupdate_right (keysOf_mem hkv))
    (fun p hp hk => mem_aupdate_uniform hδ hkv hp hk)

theorem aupdate_idem {d δ : List (String × α)} (hδ : keysNodup δ) :
    aupdate (aupdate d δ) δ = aupdate d δ := by
  apply foldl_eq_self
  intro q hq
  exact aset_eq_self
    (mem_keysOf_aupdate_right (keysOf_mem hq))
    (fun p hp hk => mem_aupdate_uniform hδ (by simpa using hq) hp hk)

theorem alookup_aupdate {d δ : List (String × α)} {k : String}
    (hδ : keysNodup δ) :
    alookup k (aupdate d δ) = orElseO (alookup k δ) (alookup k d) := by
  by_cases hk : k ∈ keysOf δ
  · obtain ⟨v, hv⟩ := alookup_isSome hk
    rw [alookup_aupdate_mem hδ (alookup_mem hv), hv]
    rfl
  · rw [alookup_aupdate_not_mem hk, alookup_eq_none hk]
    rfl

end AssocLemmas

section CategoryLemmas

theorem updateCategory_nil {m : List (String × Dict)} : updateCategory m [] = m := rfl

theorem updateCategory_cons {m : List (String × Dict)} {q : String × Dict}
    {dm : List (String × Dict)} :
    updateCategory m (q :: dm)
      = updateCategory (aset m q.1 (aupdate ((alookup q.1 m).getD []) q.2)) dm := rfl

theorem alookup_updateCategory_not_mem {m dm : List (String × Dict)} {n : String}
    (h : n ∉ keysOf dm) : alookup n (updateCategory m dm) = alookup n m := by
  induction dm generalizing m with
  | nil => rfl
  | cons q dm ih =>
      simp only [keysOf_cons, List.mem_cons, not_or] at h
      rw [updateCategory_cons, ih h.2, alookup_aset_ne h.1]

theorem mem_updateCategory_iff {m dm : List (String × Dict)} {n : String}
    {p : String × Dict} (h : n ∉ keysOf dm) (hk : p.1 = n) :
    p ∈ updateCategory m dm ↔ p ∈ m := by
  induction dm generalizing m with
  | nil => exact Iff.rfl
  | cons q dm ih =>
      simp only [keysOf_cons, List.mem_cons, not_or] at h
      rw [updateCategory_cons, ih h.2,
        mem_aset_of_ne (fun hq => h.1 (hk.symm.trans hq))]

theorem alookup_updateCategory_mem {m dm : List (String × Dict)} {n : String}
    {d : Dict} (hdm : keysNodup dm) (hmem : (n, d) ∈ dm) :
    alookup n (updateCategory m dm)
      = some (aupdate ((alookup n m).getD []) d) := by
  induction dm generalizing m with
  | nil => simp at hmem
  | cons q dm ih =>
      simp only [keysNodup, keysOf_cons, List.nodup_cons] at hdm
      rcases List.mem_cons.mp hmem with he | he
      · obtain rfl := he.symm
        rw [updateCategory_cons, alookup_updateCategory_not_mem hdm.1]
        exact alookup_aset_self
      · have hne : n ≠ q.1 := fun hq => hdm.1 (hq ▸ keysOf_mem he)
        rw [updateCategory_cons, ih hdm.2 he, alookup_aset_ne hne]

theorem mem_updateCategory_uniform {m dm : List (String × Dict)} {n : String}
    {d : Dict} {p : String × Dict} (hdm : keysNodup dm) (hmem : (n, d) ∈ dm)
    (hp : p ∈ updateCategory m dm) (hk : p.1 = n) :
    p = (n, aupdate ((alookup n m).getD []) d) := by
  induction dm generalizing m with
  | nil => simp at hmem
  | cons q dm ih =>
      simp only [keysNodup, keysOf_cons, List.nodup_cons] at hdm
      rcases List.mem_cons.mp hmem with he | he
      · obtain rfl := he.symm
        rw [updateCategory_cons] at hp
        exact mem_aset_eq ((mem_updateCategory_iff hdm.1 hk).mp hp) hk
      · have hne : n ≠ q.1 := fun hq => hdm.1 (hq ▸ keysOf_mem he)
        have := ih hdm.2 he (by rwa [updateCategory_cons] at hp)
        rwa [alookup_aset_ne hne] at this

theorem mem_keysOf_updateCategory_left {m dm : List (String × Dict)} {k : String}
    (h : k ∈ keysOf m) : k ∈ keysOf (updateCategory m dm) := by
  induction dm generalizing m with
  | nil => exact h
  | cons q dm ih =>
      rw [updateCategory_cons]
      exact ih (mem_keysOf_aset h)

theorem updateCategory_idem {m dm : List (String × Dict)} (hdm : keysNodup dm)
    (hrec : ∀ p ∈ dm, keysNodup p.2) :
    updateCategory (updateCategory m dm) dm = updateCategory m dm := by
  apply foldl_eq_self
  intro q hq
  have hl : alookup q.1 (updateCategory m dm)
      = some (aupdate ((alookup q.1 m).getD []) q.2) :=
    alookup_updateCategory_mem hdm (by simpa using hq)
  rw [hl, Option.getD_some, aupdate_idem (hrec q hq)]
  exact aset_eq_self (mem_keysOf.mpr ⟨_, alookup_mem hl, rfl⟩)
    (fun p hp hk => mem_updateCategory_uniform hdm (by simpa using hq) hp hk)

end CategoryLemmas

section ForeshadowLemmas

theorem fInsertAll_nil {step : ℕ} {fs : List FItem} {ids : List String} :
    fInsertAll step fs ids [] = (fs, ids) := rfl

theorem fInsertAll_cons {step : ℕ} {fs : List FItem} {ids : List String}
    {it : FDelta} {items : List FDelta} :
    fInsertAll step fs ids (it :: items)
      = items.foldl (fInsert step) (fInsert step (fs, ids) it) := rfl

theorem fInsert_mem {step : ℕ} {fs : List FItem} {ids : List String}
    {it : FDelta} (h : fdescription it ∈ fs.map FItem.description) :
    fInsert step (fs, ids) it = (fs, ids) := by
  simp only [fInsert, if_pos h]

theorem fInsert_not_mem {step : ℕ} {fs : List FItem} {ids : List String}
    {it : FDelta} (h : fdescription it ∉ fs.map FItem.description) :
    fInsert step (fs, ids) it
      = (fs ++ [⟨ids.headD "", fdescription it, "unresolved", step, none⟩],
         ids.tail) := by
  simp only [fInsert, if_neg h]

theorem listExtends_append {γ : Type} {l t : List γ} : listExtends l (l ++ t) :=
  ⟨t, rfl⟩

theorem listExtends_trans {γ : Type} {l₁ l₂ l₃ : List γ}
    (h₁ : listExtends l₁ l₂) (h₂ : listExtends l₂ l₃) : listExtends l₁ l₃ := by
  obtain ⟨t₁, rfl⟩ := h₁
  obtain ⟨t₂, rfl⟩ := h₂
  exact ⟨t₁ ++ t₂, List.append_assoc l₁ t₁ t₂⟩

theorem fInsertAll_extends {step : ℕ} (items : List FDelta) :
    ∀ (fs : List FItem) (ids : List String),
      listExtends fs (fInsertAll step fs ids items).1 := by
  induction items with
  | nil => exact fun fs ids => ⟨[], (List.append_nil fs).symm⟩
  | cons it items ih =>
      intro fs ids
      rw [fInsertAll_cons]
      by_cases h : fdescription it ∈ fs.map FItem.description
      · rw [fInsert_mem h]
        exact ih fs ids
      · rw [fInsert_not_mem h]
        exact listExtends_trans listExtends_append (ih _ ids.tail)

theorem listExtends_mem {γ : Type} {l₁ l₂ : List γ} (h : listExtends l₁ l₂)
    {x : γ} (hx : x ∈ l₁) : x ∈ l₂ := by
  obtain ⟨t, rfl⟩ := h
  exact List.mem_append.mpr (Or.inl hx)

theorem fInsertAll_descs {step : ℕ} (items : List FDelta) :
    ∀ (fs : List FItem) (ids : List String), ∀ it ∈ items,
      fdescription it ∈ (fInsertAll step fs ids items).1.map FItem.description := by
  induction items with
  | nil => intro fs ids it h; simp at h
  | cons it0 items ih =>
      intro fs ids it h
      rw [fInsertAll_cons]
      rcases List.mem_cons.mp h with he | he
      · subst he
        by_cases hm : fdescription it ∈ fs.map FItem.description
        · rw [fInsert_mem hm]
          obtain ⟨f, hf, hfd⟩ := List.mem_map.mp hm
          exact List.mem_map.mpr
            ⟨f, listExtends_mem (fInsertAll_extends items fs ids) hf, hfd⟩
        · rw [fInsert_not_mem hm]
          refine List.mem_map.mpr
            ⟨⟨ids.headD "", fdescription it, "unresolved", step, none⟩, ?_, rfl⟩
          exact listExtends_mem (fInsertAll_extends items _ ids.tail)
            (List.mem_append.mpr (Or.inr (List.mem_singleton.mpr rfl)))
      · by_cases hm : fdescription it0 ∈ fs.map FItem.description
        · rw [fInsert_mem hm]; exact ih fs ids it he
        · rw [fInsert_not_mem hm]; exact ih _ ids.tail it he

theorem fInsertAll_eq_self {step : ℕ} {fs : List FItem} {ids : List String}
    {items : List FDelta}
    (h : ∀ it ∈ items, fdescription it ∈ fs.map FItem.description) :
    fInsertAll step fs ids items = (fs, ids) := by
  apply foldl_eq_self
  intro it hit
  exact fInsert_mem (h it hit)

theorem fResolve_map_proj {γ : Type*} {step : ℕ} {r : String} (g : FItem → γ)
    (hg : ∀ f : FItem,
      g { f with status := "resolved", resolved_at_step := some step } = g f)
    (fs : List FItem) : (fResolve step fs r).map g = fs.map g := by
  induction fs with
  | nil => rfl
  | cons f fs ih =>
      rw [fResolve, List.map_cons, List.map_cons, List.map_cons]
      rw [show fResolve step fs r = fs.map _ from rfl] at ih
      rw [ih]
      by_cases hf : f.description = r
      · rw [if_pos hf, hg]
      · rw [if_neg hf]

theorem fResolveAll_map_proj {γ : Type*} {step : ℕ} (g : FItem → γ)
    (hg : ∀ f : FItem,
      g { f with status := "resolved", resolved_at_step := some step } = g f)
    (rs : List String) :
    ∀ fs : List FItem, (fResolveAll step fs rs).map g = fs.map g := by
  induction rs with
  | nil => exact fun fs => rfl
  | cons r rs ih =>
      intro fs
      rw [show fResolveAll step fs (r :: rs)
        = fResolveAll step (fResolve step fs r) rs from rfl, ih,
        fResolve_map_proj g hg]

theorem fResolved_invariant {step : ℕ} {r : String} {fs : List FItem}
    (h : ∀ f ∈ fs, f.description = r →
      f.status = "resolved" ∧ f.resolved_at_step = some step)
    (r' : String) :
    ∀ f ∈ fResolve step fs r', f.description = r →
      f.status = "resolved" ∧ f.resolved_at_step = some step := by
  intro f hf hd
  obtain ⟨f0, hf0, he⟩ := List.mem_map.mp hf
  by_cases h0 : f0.description = r'
  · rw [if_pos h0] at he
    rw [← he]
    exact ⟨rfl, rfl⟩
  · rw [if_neg h0] at he
    subst he
    exact h f0 hf0 hd

theorem fResolve_sets {step : ℕ} {r : String} {fs : List FItem} :
    ∀ f ∈ fResolve step fs r, f.description = r →
      f.status = "resolved" ∧ f.resolved_at_step = some step := by
  intro f hf hd
  obtain ⟨f0, hf0, he⟩ := List.mem_map.mp hf
  by_cases h0 : f0.description = r
  · rw [if_pos h0] at he
    rw [← he]
    exact ⟨rfl, rfl⟩
  · rw [if_neg h0] at he
    exact absurd (he ▸ hd) h0

theorem fResolveAll_keeps {step : ℕ} {r : String} (rs : List String) :
    ∀ fs : List FItem,
      (∀ f ∈ fs, f.description = r →
        f.status = "resolved" ∧ f.resolved_at_step = some step) →
      ∀ f ∈ fResolveAll step fs rs, f.description = r →
        f.status = "resolved" ∧ f.resolved_at_step = some step := by
  induction rs with
  | nil => exact fun fs h => h
  | cons r' rs ih =>
      intro fs h
      exact ih (fResolve step fs r') (fResolved_invariant h r')

theorem fResolveAll_resolved {step : ℕ} {r : String} (rs : List String)
    (hr : r ∈ rs) :
    ∀ fs : List FItem, ∀ f ∈ fResolveAll step fs rs, f.description = r →
      f.status = "resolved" ∧ f.resolved_at_step = some step := by
  induction rs with
  | nil => simp at hr
  | cons r' rs ih =>
      intro fs
      rcases List.mem_cons.mp hr with he | he
      · subst he
        exact fResolveAll_keeps rs (fResolve step fs r) fResolve_sets
      · exact ih he (fResolve step fs r')

theorem fResolve_eq_self {step : ℕ} {r : String} {fs : List FItem}
    (h : ∀ f ∈ fs, f.description = r →
      f.status = "resolved" ∧ f.resolved_at_step = some step) :
    fResolve step fs r = fs := by
  apply map_eq_self_of
  intro f hf
  by_cases hd : f.description = r
  · rw [if_pos hd]
    obtain ⟨h1, h2⟩ := h f hf hd
    cases f
    simp only at h1 h2
    rw [h1, h2]
  · rw [if_neg hd]

theorem fResolveAll_idem {step : ℕ} (rs : List String) (fs : List FItem) :
    fResolveAll step (fResolveAll step fs rs) rs = fResolveAll step fs rs := by
  apply foldl_eq_self
  intro r hr
  exact fResolve_eq_self (fResolveAll_resolved rs hr fs)

theorem fResolve_no_match {step : ℕ} {r : String} {fs : List FItem}
    (h : ∀ f ∈ fs, f.description ≠ r) : fResolve step fs r = fs := by
  apply map_eq_self_of
  intro f hf
  rw [if_neg (h f hf)]

end ForeshadowLemmas

theorem WorldState.ext' {a b : WorldState}
    (h1 : a.characters = b.characters) (h2 : a.items = b.items)
    (h3 : a.locations = b.locations) (h4 : a.foreshadowing = b.foreshadowing)
    (h5 : a.plot_points = b.plot_points) (h6 : a.current_step = b.current_step)
    (h7 : a.summary = b.summary) : a = b := by
  cases a
  cases b
  congr 1

theorem uws_characters (ws : WorldState) (u : Delta) (ids : List String) :
    (update_world_state ws u ids).characters
      = match u.characters with
        | some dm => updateCategory ws.characters dm
        | none => ws.characters := rfl

theorem uws_items (ws : WorldState) (u : Delta) (ids : List String) :
    (update_world_state ws u ids).items
      = match u.items with
        | some dm => updateCategory ws.items dm
        | none => ws.items := rfl

theorem uws_locations (ws : WorldState) (u : Delta) (ids : List String) :
    (update_world_state ws u ids).locations
      = match u.locations with
        | some dm => updateCategory ws.locations dm
        | none => ws.locations := rfl

theorem uws_summary (ws : WorldState) (u : Delta) (ids : List String) :
    (update_world_state ws u ids).summary
      = match u.summary with
        | some s => s
        | none => ws.summary := rfl

theorem uws_foreshadowing (ws : WorldState) (u : Delta) (ids : List String) :
    (update_world_state ws u ids).foreshadowing
      = match u.resolved_foreshadowing with
        | some rs =>
            fResolveAll ws.current_step
              (match u.foreshadowing with
                | some items => fInsertAll ws.current_step ws.foreshadowing ids items
                | none => (ws.foreshadowing, ids)).1 rs
        | none =>
            (match u.foreshadowing with
              | some items => fInsertAll ws.current_step ws.foreshadowing ids items
              | none => (ws.foreshadowing, ids)).1 := rfl

/-- **C4.** `update_world_state` performs a shallow per-field merge on the
entity maps: a singleton character delta rewrites exactly the supplied
fields of that entity (creating it when absent) and leaves every other
entity untouched; within the merged record a field comes from the delta if
supplied and from the old record otherwise; merging
`{"Mira": {status: alive}}` then `{"Mira": {location: forest}}` into a state
without Mira yields the accumulated record
`{status: alive, location: forest}`. -/
theorem C4_shallow_per_field_merge :
    (∀ (ws : WorldState) (n : String) (d : Dict) (ids : List String),
        alookup n (update_world_state ws (deltaChars [(n, d)]) ids).characters
          = some (aupdate ((alookup n ws.characters).getD []) d))
    ∧ (∀ (ws : WorldState) (n : String) (d : Dict) (ids : List String)
        (n' : String), n' ≠ n →
        alookup n' (update_world_state ws (deltaChars [(n, d)]) ids).characters
          = alookup n' ws.characters)
    ∧ (∀ (r d : Dict) (k : String), keysNodup d →
        alookup k (aupdate r d) = orElseO (alookup k d) (alookup k r))
    ∧ (∀ (ws : WorldState) (ids ids' : List String),
        "Mira" ∉ keysOf ws.characters →
        alookup "Mira"
          (update_world_state
            (update_world_state ws
              (deltaChars [("Mira", [("status", Json.str "alive")])]) ids)
            (deltaChars [("Mira", [("location", Json.str "forest")])])
            ids').characters
          = some [("status", Json.str "alive"), ("location", Json.str "forest")]) := by
  have huws : ∀ (ws : WorldState) (dm : List (String × Dict)) (ids : List String),
      (update_world_state ws (deltaChars dm) ids).characters
        = updateCategory ws.characters dm := fun _ _ _ => rfl
  have hsingle : ∀ (m : List (String × Dict)) (n : String) (d : Dict),
      updateCategory m [(n, d)] = aset m n (aupdate ((alookup n m).getD []) d) := by
    intro m n d
    rfl
  refine ⟨?_, ?_, ?_, ?_⟩
  · intro ws n d ids
    rw [huws, hsingle]
    exact alookup_aset_self
  · intro ws n d ids n' hne
    rw [huws, hsingle]
    exact alookup_aset_ne hne
  · intro r d k hd
    exact alookup_aupdate hd
  · intro ws ids ids' hmira
    rw [huws, hsingle, huws, hsingle, alookup_eq_none hmira,
      alookup_aset_self, alookup_aset_self]
    rfl

/-- Witness for C4: the per-field merge rule and the Mira scenario
evaluated at concrete inputs. -/
theorem C4_shallow_per_field_merge_witness :
    alookup "b" (aupdate [("a", Json.null)] [("b", Json.bool true)])
        = orElseO (alookup "b" [("b", Json.bool true)])
            (alookup "b" [("a", Json.null)])
    ∧ alookup "Mira"
        (update_world_state
          (update_world_state initialWorldState
            (deltaChars [("Mira", [("status", Json.str "alive")])]) [])
          (deltaChars [("Mira", [("location", Json.str "forest")])]) []).characters
        = some [("status", Json.str "alive"), ("location", Json.str "forest")] :=
  ⟨C4_shallow_per_field_merge.2.2.1 [("a", Json.null)] [("b", Json.bool true)]
      "b" (by decide),
   C4_shallow_per_field_merge.2.2.2 initialWorldState [] [] (by decide)⟩

/-- **C10.** `update_world_state` never removes anything: every entity name
present in `characters` / `items` / `locations` before a merge is still
present after it, and the foreshadowing list only ever grows at the end
(every pre-existing entry keeps its identity and description, in place). -/
theorem C10_merge_never_removes :
    ∀ (ws : WorldState) (u : Delta) (ids : List String),
      (∀ k, k ∈ keysOf ws.characters →
          k ∈ keysOf (update_world_state ws u ids).characters)
      ∧ (∀ k, k ∈ keysOf ws.items →
          k ∈ keysOf (update_world_state ws u ids).items)
      ∧ (∀ k, k ∈ keysOf ws.locations →
          k ∈ keysOf (update_world_state ws u ids).locations)
      ∧ listExtends (ws.foreshadowing.map (fun f => (f.id, f.description)))
          ((update_world_state ws u ids).foreshadowing.map
            (fun f => (f.id, f.description))) := by
  intro ws u ids
  refine ⟨?_, ?_, ?_, ?_⟩
  · intro k hk
    rw [uws_characters]
    cases u.characters with
    | none => exact hk
    | some dm => exact mem_keysOf_updateCategory_left hk
  · intro k hk
    rw [uws_items]
    cases u.items with
    | none => exact hk
    | some dm => exact mem_keysOf_updateCategory_left hk
  · intro k hk
    rw [uws_locations]
    cases u.locations with
    | none => exact hk
    | some dm => exact mem_keysOf_updateCategory_left hk
  · rw [uws_foreshadowing]
    cases u.resolved_foreshadowing with
    | some rs =>
        rw [fResolveAll_map_proj (fun f => (f.id, f.description)) (fun f => rfl) rs]
        cases u.foreshadowing with
        | none => exact ⟨[], (List.append_nil _).symm⟩
        | some items =>
            obtain ⟨t, ht⟩ := fInsertAll_extends items ws.foreshadowing ids
            exact ⟨t.map (fun f => (f.id, f.description)),
              by rw [ht, List.map_append]⟩
    | none =>
        cases u.foreshadowing with
        | none => exact ⟨[], (List.append_nil _).symm⟩
        | some items =>
            obtain ⟨t, ht⟩ := fInsertAll_extends items ws.foreshadowing ids
            exact ⟨t.map (fun f => (f.id, f.description)),
              by rw [ht, List.map_append]⟩

/-- Witness for C10: entity preservation evaluated at a concrete state and
delta. -/
theorem C10_merge_never_removes_witness :
    "Mira" ∈ keysOf (update_world_state
      ⟨[("Mira", [])], [], [], [], [], 0, ""⟩
      (deltaChars [("Bob", [])]) []).characters :=
  (C10_merge_never_removes ⟨[("Mira", [])], [], [], [], [], 0, ""⟩
    (deltaChars [("Bob", [])]) []).1 "Mira" (by decide)

/-- **C3.** `update_world_state` is idempotent on the entity maps,
foreshadowing, and summary: applying the same (well-formed) delta twice with
no intervening `add_event` yields exactly the state after one application.
(`plot_points` and `current_step` are untouched by the merge, so whole-state
equality holds.) -/
theorem C3_merge_idempotent :
    ∀ (ws : WorldState) (u : Delta) (ids ids' : List String), WFDelta u →
      update_world_state (update_world_state ws u ids) u ids'
        = update_world_state ws u ids := by
  intro ws u ids ids' hwf
  obtain ⟨uc, ui, ul, uf, ur, us⟩ := u
  obtain ⟨hwc, hwi, hwl⟩ := hwf
  apply WorldState.ext'
  · cases uc with
    | none => rfl
    | some dm =>
        obtain ⟨h1, h2⟩ := hwc dm rfl
        exact updateCategory_idem h1 h2
  · cases ui with
    | none => rfl
    | some dm =>
        obtain ⟨h1, h2⟩ := hwi dm rfl
        exact updateCategory_idem h1 h2
  · cases ul with
    | none => rfl
    | some dm =>
        obtain ⟨h1, h2⟩ := hwl dm rfl
        exact updateCategory_idem h1 h2
  · cases ur with
    | none =>
        cases uf with
        | none => rfl
        | some items =>
            show (fInsertAll ws.current_step
                (fInsertAll ws.current_step ws.foreshadowing ids items).1
                ids' items).1
              = (fInsertAll ws.current_step ws.foreshadowing ids items).1
            rw [fInsertAll_eq_self
              (fun it hit => fInsertAll_descs items ws.foreshadowing ids it hit)]
    | some rs =>
        cases uf with
        | none => exact fResolveAll_idem rs ws.foreshadowing
        | some items =>
            have hpres : ∀ it ∈ items,
                fdescription it ∈ (fResolveAll ws.current_step
                  (fInsertAll ws.current_step ws.foreshadowing ids items).1
                  rs).map FItem.description := by
              intro it hit
              rw [fResolveAll_map_proj FItem.description (fun f => rfl) rs]
              exact fInsertAll_descs items ws.foreshadowing ids it hit
            show fResolveAll ws.current_step
                (fInsertAll ws.current_step
                  (fResolveAll ws.current_step
                    (fInsertAll ws.current_step ws.foreshadowing ids items).1 rs)
                  ids' items).1 rs
              = fResolveAll ws.current_step
                  (fInsertAll ws.current_step ws.foreshadowing ids items).1 rs
            rw [fInsertAll_eq_self hpres]
            exact fResolveAll_idem rs _
  · rfl
  · rfl
  · cases us with
    | none => rfl
    | some s => rfl

/-- Witness for C3: idempotence evaluated at a concrete state and a concrete
delta touching every delta field. -/
theorem C3_merge_idempotent_witness :
    update_world_state
        (update_world_state initialWorldState
          ⟨some [("Mira", [("status", Json.str "alive")])], none, none,
           some [FDelta.fStr "the locket"], some ["the locket"],
           some "opening"⟩ ["id-1"])
        ⟨some [("Mira", [("status", Json.str "alive")])], none, none,
         some [FDelta.fStr "the locket"], some ["the locket"],
         some "opening"⟩ []
      = update_world_state initialWorldState
          ⟨some [("Mira", [("status", Json.str "alive")])], none, none,
           some [FDelta.fStr "the locket"], some ["the locket"],
           some "opening"⟩ ["id-1"] :=
  C3_merge_idempotent initialWorldState
    ⟨some [("Mira", [("status", Json.str "alive")])], none, none,
     some [FDelta.fStr "the locket"], some ["the locket"], some "opening"⟩
    ["id-1"] []
    (by refine ⟨?_, ?_, ?_⟩ <;> (intro dm h; cases h) <;> exact (by decide))

section CountLemmas

theorem countDesc_append {D : String} (l₁ l₂ : List FItem) :
    countDesc D (l₁ ++ l₂) = countDesc D l₁ + countDesc D l₂ := by
  induction l₁ with
  | nil => simp [countDesc]
  | cons f l₁ ih =>
      rw [List.cons_append, countDesc, countDesc, ih, Nat.add_assoc]

theorem countDesc_eq_zero_iff {D : String} {fs : List FItem} :
    countDesc D fs = 0 ↔ D ∉ fs.map FItem.description := by
  induction fs with
  | nil => simp [countDesc]
  | cons f fs ih =>
      rw [countDesc, List.map_cons]
      by_cases hd : f.description = D
      · simp [hd, ih]
      · simp only [if_neg hd, Nat.zero_add, ih, List.mem_cons]
        constructor
        · rintro h (he | hm)
          · exact hd he.symm
          · exact h hm
        · exact fun h hm => h (Or.inr hm)

theorem count_fInsert {D : String} {step : ℕ} (it : FDelta) (fs : List FItem)
    (ids : List String) :
    countDesc D (fInsert step (fs, ids) it).1
      = if countDesc D fs = 0 ∧ fdescription it = D then 1
        else countDesc D fs := by
  by_cases hm : fdescription it ∈ fs.map FItem.description
  · rw [fInsert_mem hm]
    by_cases hd : fdescription it = D
    · have hne : countDesc D fs ≠ 0 := by
        rw [Ne, countDesc_eq_zero_iff]
        intro h
        exact h (hd ▸ hm)
      rw [if_neg (fun hc => hne hc.1)]
    · rw [if_neg (fun hc => hd hc.2)]
  · rw [fInsert_not_mem hm, countDesc_append]
    by_cases hd : fdescription it = D
    · have h0 : countDesc D fs = 0 :=
        countDesc_eq_zero_iff.mpr (hd ▸ hm)
      rw [if_pos (show countDesc D fs = 0 ∧ fdescription it = D from ⟨h0, hd⟩),
        h0]
      simp [countDesc, hd]
    · rw [if_neg (fun hc => hd hc.2)]
      simp [countDesc, hd]

theorem count_fInsertAll {D : String} {step : ℕ} (items : List FDelta) :
    ∀ (fs : List FItem) (ids : List String),
      countDesc D (fInsertAll step fs ids items).1
        = if countDesc D fs = 0 ∧ (∃ it ∈ items, fdescription it = D) then 1
          else countDesc D fs := by
  induction items with
  | nil =>
      intro fs ids
      rw [fInsertAll_nil, if_neg (fun hc => by simp at hc)]
  | cons it items ih =>
      intro fs ids
      rw [fInsertAll_cons]
      have hpair : fInsert step (fs, ids) it
          = ((fInsert step (fs, ids) it).1, (fInsert step (fs, ids) it).2) := rfl
      rw [hpair]
      rw [show List.foldl (fInsert step)
          ((fInsert step (fs, ids) it).1, (fInsert step (fs, ids) it).2) items
        = fInsertAll step (fInsert step (fs, ids) it).1
            (fInsert step (fs, ids) it).2 items from rfl]
      rw [ih, count_fInsert]
      have hcons : (∃ x ∈ it :: items, fdescription x = D)
          ↔ (fdescription it = D ∨ ∃ x ∈ items, fdescription x = D) := by
        constructor
        · rintro ⟨x, hx, hd⟩
          rcases List.mem_cons.mp hx with he | he
          · exact Or.inl (he ▸ hd)
          · exact Or.inr ⟨x, he, hd⟩
        · rintro (hd | ⟨x, hx, hd⟩)
          · exact ⟨it, List.mem_cons_self it items, hd⟩
          · exact ⟨x, List.mem_cons_of_mem it hx, hd⟩
      by_cases hc0 : countDesc D fs = 0
      · by_cases hd : fdescription it = D
        · rw [if_pos (show countDesc D fs = 0 ∧ fdescription it = D from
              ⟨hc0, hd⟩)]
          rw [if_neg (fun hc => Nat.one_ne_zero hc.1)]
          rw [if_pos ⟨hc0, hcons.mpr (Or.inl hd)⟩]
        · rw [if_neg (show ¬(countDesc D fs = 0 ∧ fdescription it = D) from
              fun hc => hd hc.2)]
          by_cases he : ∃ x ∈ items, fdescription x = D
          · rw [if_pos ⟨hc0, he⟩, if_pos ⟨hc0, hcons.mpr (Or.inr he)⟩]
          · rw [if_neg (fun hc => he hc.2),
              if_neg (fun hc => (hcons.mp hc.2).elim hd he)]
      · rw [if_neg (show ¬(countDesc D fs = 0 ∧ fdescription it = D) from
            fun hA => hc0 hA.1)]
        rw [if_neg (fun h => hc0 h.1), if_neg (fun h => hc0 h.1)]

end CountLemmas

theorem countDesc_cons {D : String} (f : FItem) (fs : List FItem) :
    countDesc D (f :: fs) = (if f.description = D then 1 else 0) + countDesc D fs :=
  rfl

theorem countDesc_fResolve {D r : String} {step : ℕ} (fs : List FItem) :
    countDesc D (fResolve step fs r) = countDesc D fs := by
  induction fs with
  | nil => rfl
  | cons f fs ih =>
      rw [show fResolve step (f :: fs) r
        = (if f.description = r then
            { f with status := "resolved", resolved_at_step := some step }
           else f) :: fResolve step fs r from rfl]
      rw [countDesc_cons, countDesc_cons, ih]
      by_cases hf : f.description = r
      · rw [if_pos hf]
      · rw [if_neg hf]

/-- **C5.** Foreshadowing descriptions stay unique under merging: from a
state holding at most one entry with description `D`, two successive deltas
each inserting `D` leave exactly one entry with that description. Resolving
by description is a no-op when no matching entry exists, and otherwise marks
every matching entry `resolved` with `resolved_at_step = current_step`,
leaving identity, description and creation step of every entry unchanged
and non-matching entries entirely untouched. -/
theorem C5_foreshadowing_uniqueness :
    (∀ (ws : WorldState) (ids ids' : List String)
        (items items' : List FDelta) (D : String),
        countDesc D ws.foreshadowing ≤ 1 →
        (∃ it ∈ items, fdescription it = D) →
        (∃ it ∈ items', fdescription it = D) →
        countDesc D (update_world_state
            (update_world_state ws (deltaFs items) ids)
            (deltaFs items') ids').foreshadowing = 1)
    ∧ (∀ (ws : WorldState) (ids : List String) (D : String),
        (∀ f ∈ ws.foreshadowing, f.description ≠ D) →
        (update_world_state ws (deltaResolve [D]) ids).foreshadowing
          = ws.foreshadowing)
    ∧ (∀ (ws : WorldState) (ids : List String) (D : String),
        ∀ f ∈ (update_world_state ws (deltaResolve [D]) ids).foreshadowing,
          f.description = D →
          f.status = "resolved" ∧ f.resolved_at_step = some ws.current_step)
    ∧ (∀ (ws : WorldState) (ids : List String) (D : String),
        (update_world_state ws (deltaResolve [D]) ids).foreshadowing.map
            (fun f => (f.id, f.description, f.created_at_step))
          = ws.foreshadowing.map
              (fun f => (f.id, f.description, f.created_at_step)))
    ∧ (∀ (ws : WorldState) (ids : List String) (D : String),
        ∀ f ∈ ws.foreshadowing, f.description ≠ D →
          f ∈ (update_world_state ws (deltaResolve [D]) ids).foreshadowing) := by
  have key : ∀ (ws : WorldState) (items : List FDelta) (ids : List String)
      (D : String),
      countDesc D ws.foreshadowing ≤ 1 →
      (∃ it ∈ items, fdescription it = D) →
      countDesc D (update_world_state ws (deltaFs items) ids).foreshadowing
        = 1 := by
    intro ws items ids D hc hex
    show countDesc D (fInsertAll ws.current_step ws.foreshadowing ids items).1 = 1
    rw [count_fInsertAll]
    split_ifs with h
    · rfl
    · have hne : countDesc D ws.foreshadowing ≠ 0 := fun h0 => h ⟨h0, hex⟩
      omega
  refine ⟨?_, ?_, ?_, ?_, ?_⟩
  · intro ws ids ids' items items' D hc h1 h2
    have hfirst := key ws items ids D hc h1
    exact key (update_world_state ws (deltaFs items) ids) items' ids' D
      (hfirst ▸ Nat.le_refl 1) h2
  · intro ws ids D h
    show fResolve ws.current_step ws.foreshadowing D = ws.foreshadowing
    exact fResolve_no_match h
  · intro ws ids D f hf hd
    exact fResolve_sets f hf hd
  · intro ws ids D
    show (fResolve ws.current_step ws.foreshadowing D).map _ = _
    exact fResolve_map_proj (fun f => (f.id, f.description, f.created_at_step))
      (fun f => rfl) ws.foreshadowing
  · intro ws ids D f hf hne
    show f ∈ fResolve ws.current_step ws.foreshadowing D
    refine List.mem_map.mpr ⟨f, hf, ?_⟩
    simp only [if_neg hne]

/-- Witness for C5: uniqueness and resolution evaluated at concrete states
and deltas. -/
theorem C5_foreshadowing_uniqueness_witness :
    countDesc "X" (update_world_state
        (update_world_state initialWorldState
          (deltaFs [FDelta.fStr "X"]) ["id-1"])
        (deltaFs [FDelta.fObj "X"]) ["id-2"]).foreshadowing = 1
    ∧ (update_world_state
        ⟨[], [], [], [⟨"id-1", "X", "unresolved", 0, none⟩], [], 3, ""⟩
        (deltaResolve ["Y"]) []).foreshadowing
      = [⟨"id-1", "X", "unresolved", 0, none⟩] :=
  ⟨C5_foreshadowing_uniqueness.1 initialWorldState ["id-1"] ["id-2"]
      [FDelta.fStr "X"] [FDelta.fObj "X"] "X" (by decide)
      ⟨FDelta.fStr "X", by decide, rfl⟩ ⟨FDelta.fObj "X", by decide, rfl⟩,
   C5_foreshadowing_uniqueness.2.1
      ⟨[], [], [], [⟨"id-1", "X", "unresolved", 0, none⟩], [], 3, ""⟩ [] "Y"
      (by decide)⟩

/-- **C1.** `uct_score` returns `+infinity` for an unvisited node and the
UCT formula `value/visits + w * sqrt(ln(parent.visits)/visits)` otherwise;
consequently, for any exploration weight, the score of an unvisited node is
strictly greater than the score of any visited sibling (a finite real is
below `⊤`). -/
theorem C1_uct_score_contract :
    (∀ (n : StoryNode) (pv : ℕ) (w : ℝ), n.visits = 0 → n.uct_score pv w = ⊤)
    ∧ (∀ (n : StoryNode) (pv : ℕ) (w : ℝ), n.visits ≠ 0 →
        n.uct_score pv w
          = (((n.value : ℝ) / (n.visits : ℝ)
              + w * Real.sqrt (Real.log (pv : ℝ) / (n.visits : ℝ)) : ℝ) : EReal))
    ∧ (∀ (n m : StoryNode) (pv pv' : ℕ) (w : ℝ), 0 < w →
        n.visits = 0 → m.visits ≠ 0 →
        m.uct_score pv' w < n.uct_score pv w) := by
  refine ⟨?_, ?_, ?_⟩
  · intro n pv w h
    rw [StoryNode.uct_score, if_pos h]
  · intro n pv w h
    rw [StoryNode.uct_score, if_neg h]
  · intro n m pv pv' w _hw h0 hm
    rw [StoryNode.uct_score, if_neg hm, StoryNode.uct_score, if_pos h0]
    exact EReal.coe_lt_top _

/-- Witness for C1: an unvisited node scores `⊤`, strictly above a sibling
with one visit, at concrete inputs. -/
theorem C1_uct_score_contract_witness :
    dummyNode.uct_score 3 1 = ⊤
    ∧ (StoryNode.mk "a" ⟨"", [], []⟩ 1 0 []).uct_score 3 1
        < dummyNode.uct_score 3 1 :=
  ⟨C1_uct_score_contract.1 dummyNode 3 1 rfl,
   C1_uct_score_contract.2.2 dummyNode (StoryNode.mk "a" ⟨"", [], []⟩ 1 0 [])
     3 3 1 (by norm_num) rfl (by decide)⟩

/-- **C6 (amended).** The critique-score parsing returns `0.5` whenever the
response is not valid JSON, the payload is not an object, the `score` key is
missing, or its value does not convert to a float; when the value converts
to a float `q`, it returns `q` as-is — with no range check (so out-of-range
scores are NOT defaulted to `0.5`; see the counterexample). The function is
total, so no error ever propagates to the caller. -/
theorem C6_simulate_score_parsing :
    simulateScore none = 1 / 2
    ∧ (∀ j : Json, (∀ fields, j ≠ Json.obj fields) →
        simulateScore (some j) = 1 / 2)
    ∧ (∀ fields, alookup "score" fields = none →
        simulateScore (some (Json.obj fields)) = 1 / 2)
    ∧ (∀ fields v, alookup "score" fields = some v → pyFloat v = none →
        simulateScore (some (Json.obj fields)) = 1 / 2)
    ∧ (∀ fields v q, alookup "score" fields = some v → pyFloat v = some q →
        simulateScore (some (Json.obj fields)) = q) := by
  have hobj : ∀ fields, simulateScore (some (Json.obj fields))
      = match alookup "score" fields with
        | some v => (pyFloat v).getD (1 / 2)
        | none => 1 / 2 := fun _ => rfl
  refine ⟨rfl, ?_, ?_, ?_, ?_⟩
  · intro j h
    cases j with
    | obj fields => exact absurd rfl (h fields)
    | null => rfl
    | bool b => rfl
    | num q => rfl
    | str s => rfl
    | arr xs => rfl
  · intro fields h
    rw [hobj, h]
  · intro fields v h hv
    rw [hobj, h]
    show (pyFloat v).getD (1 / 2) = 1 / 2
    rw [hv]
    rfl
  · intro fields v q h hv
    rw [hobj, h]
    show (pyFloat v).getD (1 / 2) = q
    rw [hv]
    rfl

/-- C6 counterexample: the source performs no range check — a critique
payload whose score is 5, outside 0.0–1.0, is returned as 5 rather than
being defaulted to 0.5, refuting the out-of-range clause of the claim. -/
theorem C6_simulate_score_counterexample :
    (1 : ℚ) < 5
    ∧ simulateScore (some (Json.obj [("score", Json.num 5)])) = 5
    ∧ simulateScore (some (Json.obj [("score", Json.num 5)])) ≠ 1 / 2 := by
  refine ⟨by norm_num, rfl, ?_⟩
  rw [show simulateScore (some (Json.obj [("score", Json.num 5)])) = 5 from rfl]
  norm_num

/-- Witness for C6: the convertible-score branch evaluated at a concrete
payload. -/
theorem C6_simulate_score_parsing_witness :
    simulateScore (some (Json.obj [("score", Json.num (3 / 4))])) = 3 / 4 :=
  C6_simulate_score_parsing.2.2.2.2 [("score", Json.num (3 / 4))]
    (Json.num (3 / 4)) (3 / 4) rfl rfl

/-- **C9.** (spec-modelled) The planner's refine operation returns the new
state produced by the external structured call when it succeeds, and
returns the input state unchanged when the call fails — a safe no-op on
error. -/
theorem C9_refine_noop_on_failure :
    (∀ (cur : Json) (fb : String), refine_plan cur fb none = cur)
    ∧ (∀ (cur newState : Json) (fb : String),
        refine_plan cur fb (some newState) = newState) :=
  ⟨fun _ _ => rfl, fun _ _ _ => rfl⟩

section EngineLemmas

theorem rollout_childless (ef : StoryNode → List (String × NodeState))
    (sf : StoryNode → ℚ) (pk : ℕ) (c : String) (st : NodeState) (v : ℕ)
    (val : ℚ)
    (hef : v = 0 → ef (StoryNode.mk c st v val []) = []) :
    rollout ef sf pk (StoryNode.mk c st v val [])
      = (StoryNode.mk c st (v + 1)
          (val + sf (StoryNode.mk c st v val [])) [],
         sf (StoryNode.mk c st v val [])) := by
  by_cases hv : v = 0
  · subst hv
    simp [rollout, hef rfl]
  · simp [rollout, hv]

theorem runStep_childless {ef : StoryNode → List (String × NodeState)}
    {sf : StoryNode → ℚ} (hef : ∀ n, ef n = []) (l : List ℕ)
    (pk : ℕ → ℕ) :
    ∀ cur : StoryNode, cur.children = [] →
      (l.foldl (fun n k => (rollout ef sf (pk k) n).1) cur).children = [] := by
  induction l with
  | nil => exact fun cur h => h
  | cons k l ih =>
      intro cur h
      rw [List.foldl_cons]
      obtain ⟨c, st, v, val, cs⟩ := cur
      have hcs : cs = [] := h
      subst hcs
      rw [rollout_childless ef sf (pk k) c st v val (fun _ => hef _)]
      exact ih _ rfl

theorem runLoop_succ (ef : StoryNode → List (String × NodeState))
    (sf : StoryNode → ℚ) (pk : ℕ → ℕ → ℕ) (iters : ℕ)
    (ids : ℕ → List String) (steps : ℕ) (cur : StoryNode) (mem : WorldState)
    (seq : List String) :
    runLoop ef sf pk iters ids (steps + 1) cur mem seq
      = (match (runStep ef sf (pk steps) iters cur).children with
         | [] => (seq, mem)
         | k0 :: kr =>
             let best := (k0 :: kr).get
               ⟨bestVisitIdx (k0 :: kr) % (k0 :: kr).length,
                Nat.mod_lt _ (Nat.succ_pos kr.length)⟩
             runLoop ef sf pk iters (fun j => ids (j + 1)) steps best
               (commitNode mem best (ids 0)) (seq ++ [best.content])) := rfl

theorem runLoop_spec (ef : StoryNode → List (String × NodeState))
    (sf : StoryNode → ℚ) (pk : ℕ → ℕ → ℕ) (iters : ℕ) :
    ∀ (steps : ℕ) (ids : ℕ → List String) (cur : StoryNode)
      (mem : WorldState) (seq : List String),
      ∃ chosen : List StoryNode,
        (runLoop ef sf pk iters ids steps cur mem seq).1
            = seq ++ chosen.map StoryNode.content
        ∧ (runLoop ef sf pk iters ids steps cur mem seq).2
            = commitAll ids mem chosen
        ∧ chosen.length ≤ steps := by
  intro steps
  induction steps with
  | zero =>
      intro ids cur mem seq
      exact ⟨[], by simp [runLoop], rfl, Nat.le_refl 0⟩
  | succ steps ih =>
      intro ids cur mem seq
      rw [runLoop_succ]
      cases hch : (runStep ef sf (pk steps) iters cur).children with
      | nil =>
          exact ⟨[], by simp, rfl, Nat.zero_le _⟩
      | cons k0 kr =>
          obtain ⟨chosen, h1, h2, h3⟩ := ih (fun j => ids (j + 1))
            ((k0 :: kr).get
              ⟨bestVisitIdx (k0 :: kr) % (k0 :: kr).length,
               Nat.mod_lt _ (Nat.succ_pos kr.length)⟩)
            (commitNode mem ((k0 :: kr).get
              ⟨bestVisitIdx (k0 :: kr) % (k0 :: kr).length,
               Nat.mod_lt _ (Nat.succ_pos kr.length)⟩) (ids 0))
            (seq ++ [((k0 :: kr).get
              ⟨bestVisitIdx (k0 :: kr) % (k0 :: kr).length,
               Nat.mod_lt _ (Nat.succ_pos kr.length)⟩).content])
          refine ⟨(k0 :: kr).get
              ⟨bestVisitIdx (k0 :: kr) % (k0 :: kr).length,
               Nat.mod_lt _ (Nat.succ_pos kr.length)⟩ :: chosen, ?_, ?_, ?_⟩
          · rw [h1, List.map_cons, List.append_assoc]
            rfl
          · rw [h2]
            rfl
          · exact Nat.succ_le_succ h3

theorem bestVisitIdx_fold (cs : List StoryNode) :
    ∀ (l : List ℕ) (b : ℕ), b < cs.length → (∀ x ∈ l, x < cs.length) →
      (l.foldl (fun b j =>
          if (cs.getD b dummyNode).visits < (cs.getD j dummyNode).visits
          then j else b) b) < cs.length
      ∧ (cs.getD b dummyNode).visits
          ≤ (cs.getD (l.foldl (fun b j =>
              if (cs.getD b dummyNode).visits < (cs.getD j dummyNode).visits
              then j else b) b) dummyNode).visits
      ∧ ∀ x ∈ l, (cs.getD x dummyNode).visits
          ≤ (cs.getD (l.foldl (fun b j =>
              if (cs.getD b dummyNode).visits < (cs.getD j dummyNode).visits
              then j else b) b) dummyNode).visits := by
  intro l
  induction l with
  | nil =>
      intro b hb _
      exact ⟨hb, Nat.le_refl _, by simp⟩
  | cons x l ih =>
      intro b hb hl
      rw [List.foldl_cons]
      have hx : x < cs.length := hl x (List.mem_cons_self x l)
      have hb' : (if (cs.getD b dummyNode).visits < (cs.getD x dummyNode).visits
          then x else b) < cs.length := by
        split_ifs
        · exact hx
        · exact hb
      obtain ⟨r1, r2, r3⟩ := ih _ hb'
        (fun y hy => hl y (List.mem_cons_of_mem x hy))
      refine ⟨r1, ?_, ?_⟩
      · refine Nat.le_trans ?_ r2
        split_ifs with hcmp
        · exact Nat.le_of_lt hcmp
        · exact Nat.le_refl _
      · intro y hy
        rcases List.mem_cons.mp hy with he | he
        · subst he
          refine Nat.le_trans ?_ r2
          split_ifs with hcmp
          · exact Nat.le_refl _
          · exact Nat.le_of_not_lt hcmp
        · exact r3 y he

end EngineLemmas

/-- **C7 (amended).** When the external generation call fails, the response
is not parseable JSON, the payload is not an object, or `options` is not a
list, expansion produces zero children and does not raise. When an option
inside the list makes the source raise (a non-dict option, a non-string
`text`, a `new_characters` value `dict.update` rejects, or a non-iterable
foreshadowing value), processing stops there but keeps the children built
from the earlier options — so malformed structured data can yield a
NONZERO number of children; the children are exactly those of the longest
prefix of options that CPython processes without an exception. In
particular, data that is malformed relative to the prompt's schema but
raises nothing — such as a numeric foreshadowing entry — still yields a
child. Whenever a node ends up childless, the engine simulates and
backpropagates that node itself instead of one of its children. -/
theorem C7_expansion_failure_semantics :
    (∀ ps : PyState, processExpansionResponse ps none = [])
    ∧ (∀ (ps : PyState) (opts : List Json),
        childrenOfOptions ps opts
          = (opts.takeWhile (fun o => (processOption ps o).isSome)).filterMap
              (processOption ps))
    ∧ (processExpansionResponse ⟨"", [], []⟩
        (some (Json.obj [("options", Json.arr
          [Json.obj [("text", Json.str "a"),
             ("new_foreshadowing", Json.arr [Json.num 5])],
           Json.obj [("text", Json.str "b")]])]))).length = 2
    ∧ (∀ (ef : StoryNode → List (String × NodeState)) (sf : StoryNode → ℚ)
        (pk : ℕ) (c : String) (st : NodeState) (v : ℕ) (val : ℚ),
        (v = 0 → ef (StoryNode.mk c st v val []) = []) →
        rollout ef sf pk (StoryNode.mk c st v val [])
          = (StoryNode.mk c st (v + 1)
              (val + sf (StoryNode.mk c st v val [])) [],
             sf (StoryNode.mk c st v val []))) := by
  refine ⟨fun ps => rfl, ?_, rfl, ?_⟩
  · intro ps opts
    induction opts with
    | nil => rfl
    | cons o rest ih =>
        cases hp : processOption ps o with
        | some ch =>
            have h1 : childrenOfOptions ps (o :: rest)
                = ch :: childrenOfOptions ps rest := by
              simp only [childrenOfOptions, hp]
            have h2 : (o :: rest).takeWhile
                  (fun o' => (processOption ps o').isSome)
                = o :: rest.takeWhile (fun o' => (processOption ps o').isSome) := by
              simp [List.takeWhile_cons, hp]
            rw [h1, h2, List.filterMap_cons, hp, ih]
        | none =>
            have h1 : childrenOfOptions ps (o :: rest) = [] := by
              simp only [childrenOfOptions, hp]
            have h2 : (o :: rest).takeWhile
                (fun o' => (processOption ps o').isSome) = [] := by
              simp [List.takeWhile_cons, hp]
            rw [h1, h2]
            rfl
  · intro ef sf pk c st v val hef
    exact rollout_childless ef sf pk c st v val hef

/-- C7 counterexample: a completed call whose structured payload is
malformed (the second option is a bare string, which raises at `.get`)
produces ONE child — the one built from the leading well-formed option —
not zero, refuting the claim as stated. -/
theorem C7_expansion_counterexample :
    (processExpansionResponse ⟨"", [], []⟩
        (some (Json.obj [("options", Json.arr
          [Json.obj [("text", Json.str "a")], Json.str "bad"])]))).length = 1
    ∧ (1 : ℕ) ≠ 0 :=
  ⟨rfl, by decide⟩

/-- Witness for C7: the childless-node fallback evaluated at a concrete
unvisited leaf whose expansion yields nothing. -/
theorem C7_expansion_failure_semantics_witness :
    rollout (fun _ => []) (fun _ => 1) 0 (StoryNode.mk "r" ⟨"", [], []⟩ 0 0 [])
      = (StoryNode.mk "r" ⟨"", [], []⟩ (0 + 1) (0 + 1) [], 1) :=
  C7_expansion_failure_semantics.2.2.2 (fun _ => []) (fun _ => 1) 0 "r"
    ⟨"", [], []⟩ 0 0 (fun _ => rfl)

/-- **C8.** Sequential rollout-and-commit search: the returned label
sequence is the contents of a chosen node list of length at most `steps`,
and the final memory is exactly the fold of per-step commits (one appended
plot-point event plus one state merge per chosen node) over that list; if
expansion never yields children the search stops immediately with an empty
sequence and untouched memory; the per-step choice takes the first child
with the highest visit count. -/
theorem C8_sequential_rollout_commit :
    (∀ (ef : StoryNode → List (String × NodeState)) (sf : StoryNode → ℚ)
        (pk : ℕ → ℕ → ℕ) (iters : ℕ) (ids : ℕ → List String) (steps : ℕ)
        (st : NodeState) (prompt : String) (mem : WorldState),
        ∃ chosen : List StoryNode,
          (run_search ef sf pk iters ids steps st prompt mem).1
              = chosen.map StoryNode.content
          ∧ (run_search ef sf pk iters ids steps st prompt mem).2
              = commitAll ids mem chosen
          ∧ chosen.length ≤ steps)
    ∧ (∀ (ef : StoryNode → List (String × NodeState)) (sf : StoryNode → ℚ)
        (pk : ℕ → ℕ → ℕ) (iters : ℕ) (ids : ℕ → List String) (steps : ℕ)
        (st : NodeState) (prompt : String) (mem : WorldState),
        (∀ n, ef n = []) →
        run_search ef sf pk iters ids steps st prompt mem = ([], mem))
    ∧ (∀ cs : List StoryNode, cs ≠ [] →
        bestVisitIdx cs < cs.length
        ∧ ∀ j, j < cs.length →
            (cs.getD j dummyNode).visits
              ≤ (cs.getD (bestVisitIdx cs) dummyNode).visits) := by
  refine ⟨?_, ?_, ?_⟩
  · intro ef sf pk iters ids steps st prompt mem
    obtain ⟨chosen, h1, h2, h3⟩ := runLoop_spec ef sf pk iters steps ids
      (StoryNode.mk prompt st 0 0 []) mem []
    rw [List.nil_append] at h1
    exact ⟨chosen, h1, h2, h3⟩
  · intro ef sf pk iters ids steps st prompt mem hef
    cases steps with
    | zero => rfl
    | succ steps =>
        have hc : (runStep ef sf (pk steps) iters
            (StoryNode.mk prompt st 0 0 [])).children = [] :=
          runStep_childless hef (List.range iters) (pk steps)
            (StoryNode.mk prompt st 0 0 []) rfl
        show runLoop ef sf pk iters ids (steps + 1)
            (StoryNode.mk prompt st 0 0 []) mem [] = ([], mem)
        rw [runLoop_succ, hc]
  · intro cs hne
    have hpos : 0 < cs.length := List.length_pos.mpr hne
    obtain ⟨r1, _, r3⟩ := bestVisitIdx_fold cs (List.range cs.length) 0 hpos
      (fun x hx => List.mem_range.mp hx)
    exact ⟨r1, fun j hj => r3 j (List.mem_range.mpr hj)⟩

/-- Witness for C8: total expansion failure and the argmax property
evaluated at concrete inputs. -/
theorem C8_sequential_rollout_commit_witness :
    run_search (fun _ => []) (fun _ => 1) (fun _ _ => 0) 2 (fun _ => []) 3
        ⟨"", [], []⟩ "p" initialWorldState = ([], initialWorldState)
    ∧ bestVisitIdx [dummyNode] < [dummyNode].length :=
  ⟨C8_sequential_rollout_commit.2.1 (fun _ => []) (fun _ => 1) (fun _ _ => 0)
      2 (fun _ => []) 3 ⟨"", [], []⟩ "p" initialWorldState (fun _ => rfl),
   (C8_sequential_rollout_commit.2.2 [dummyNode]
      (List.cons_ne_nil dummyNode [])).1⟩
